import Mathlib

/-!
Verification development for `allihoopa_tool.py` (the Allihoopa export
archive tool).  The Python source is shallowly embedded: strings are
`List Char`, `pathlib.Path` values are a directory-segment list plus a
file name, the filesystem is an explicit record of directories and
files-with-contents, and the rename journal is an explicit list of
records.  Fallible Python code (attribute errors, missing files) is
modelled with explicit error values.

Modelling notes, fixed once here:
* Python `str.strip()` / the regex `\s` both use the same whitespace
  set (`str.isspace`); `isWS` below lists exactly those code points.
* `str.upper()` / `str.casefold()` are modelled as ASCII case maps
  (`upperChar`, `lowerChar`); every string the claims touch is ASCII.
* `re.sub(r"\s+", r)` and `re.sub(r"_+", "_")` replace each maximal
  run of matching characters by the single replacement character;
  `collapseRuns` implements exactly that.
-/

set_option maxRecDepth 100000

namespace Allihoopa

/-- Python whitespace (`str.isspace`, also the `re` class `\s` on `str`). -/
def isWS (c : Char) : Bool :=
  c.toNat ∈ [9, 10, 11, 12, 13, 28, 29, 30, 31, 32, 133, 160, 5760,
    8192, 8193, 8194, 8195, 8196, 8197, 8198, 8199, 8200, 8201, 8202,
    8232, 8233, 8239, 8287, 12288]

/-- Characters removed by `rstrip(" .")` in `safe_filename_base`. -/
def isDS (c : Char) : Bool := c = ' ' || c = '.'

/-- The character class of `INVALID_WIN_RE`: `[<>:"/\|?*\u0000-\u001F]`. -/
def isIllegal (c : Char) : Bool :=
  c.toNat < 32 || c ∈ ['<', '>', ':', '"', '/', '\\', '|', '?', '*']

/-- ASCII model of Python `str.upper` applied charwise. -/
def upperChar (c : Char) : Char :=
  if 'a' ≤ c ∧ c ≤ 'z' then Char.ofNat (c.toNat - 32) else c

/-- ASCII model of Python `str.lower` / `str.casefold` applied charwise. -/
def lowerChar (c : Char) : Char :=
  if 'A' ≤ c ∧ c ≤ 'Z' then Char.ofNat (c.toNat + 32) else c

/-- Decimal digit to its character, for rendering `f"{i}"`. -/
def digitChar (d : Nat) : Char := Char.ofNat (48 + d)

/-- Decimal rendering of a natural number, as Python `str(i)` produces. -/
def natDecimal (n : Nat) : List Char :=
  if n = 0 then ['0'] else ((Nat.digits 10 n).map digitChar).reverse

/-- Drop the trailing run of characters satisfying `p`
(Python `rstrip` restricted to a character class). -/
def rdropW (p : Char → Bool) : List Char → List Char
  | [] => []
  | c :: cs =>
    let r := rdropW p cs
    if r = [] && p c then [] else c :: r

/-- Python `str.strip()` (no argument): drop whitespace at both ends. -/
def stripL (l : List Char) : List Char := rdropW isWS (l.dropWhile isWS)

/-- Worker for `collapseRuns`; `prev` records whether the previous
character was part of a run being collapsed. -/
def collapseRunsAux (p : Char → Bool) (r : Char) : Bool → List Char → List Char
  | _, [] => []
  | prev, c :: cs =>
    if p c then
      if prev then collapseRunsAux p r true cs
      else r :: collapseRunsAux p r true cs
    else c :: collapseRunsAux p r false cs

/-- `re.sub` of the class `p` repeated (`p+`) by the single character `r`:
each maximal run of `p`-characters becomes one `r`. -/
def collapseRuns (p : Char → Bool) (r : Char) (l : List Char) : List Char :=
  collapseRunsAux p r false l

/-- `"untitled"`, the fallback base name. -/
def untitled : List Char := "untitled".data

/-- The reserved device names `WIN_RESERVED` (already upper-case). -/
def winReserved : List (List Char) :=
  ["CON".data, "PRN".data, "AUX".data, "NUL".data,
   "COM1".data, "COM2".data, "COM3".data, "COM4".data, "COM5".data,
   "COM6".data, "COM7".data, "COM8".data, "COM9".data,
   "LPT1".data, "LPT2".data, "LPT3".data, "LPT4".data, "LPT5".data,
   "LPT6".data, "LPT7".data, "LPT8".data, "LPT9".data]

/-- `s.upper() in WIN_RESERVED`. -/
def isReserved (l : List Char) : Bool := l.map upperChar ∈ winReserved

/-- The whitespace-normalisation step of `safe_filename_base`:
`WS_RE.sub(" ", s)` with `preserve_blanks`, otherwise `WS_RE.sub("_", s)`
followed by `re.sub(r"_+", "_", s)`. -/
def wsNormalize (preserve_blanks : Bool) (l : List Char) : List Char :=
  if preserve_blanks then collapseRuns isWS ' ' l
  else collapseRuns (fun c => c = '_') '_' (collapseRuns isWS '_' l)

/-- The character replacement of `INVALID_WIN_RE.sub("_", s)`. -/
def illegalToU (c : Char) : Char := if isIllegal c then '_' else c

/-- Stages of `safe_filename_base` before the `max_len` truncation:
strip, whitespace normalisation (with underscore-run collapsing in the
default mode), empty fallback, illegal-character replacement, trailing
dot/space removal, and reserved-name wrapping. -/
def preTrunc (s : List Char) (preserve_blanks : Bool) : List Char :=
  let s0 := stripL s
  let s1 := wsNormalize preserve_blanks s0
  let s2 := if s1 = [] then untitled else s1
  let s3 := s2.map illegalToU
  let s4 := rdropW isDS s3
  if isReserved s4 then '_' :: (s4 ++ ['_']) else s4

/-- No two adjacent characters of the list both satisfy `p`. -/
def noTwoAdj (p : Char → Bool) : List Char → Bool
  | [] => true
  | [_] => true
  | a :: b :: rest => (!(p a && p b)) && noTwoAdj p (b :: rest)

/-- The last character of a list, if any. -/
def lastO : List Char → Option Char
  | [] => none
  | [c] => some c
  | _ :: c :: cs => lastO (c :: cs)

/-- Whether the list ends in a character satisfying `p`. -/
def endsP (p : Char → Bool) (l : List Char) : Bool :=
  match lastO l with
  | some c => p c
  | none => false

/-- The list is empty or starts with a character not satisfying `p`. -/
def headNot (p : Char → Bool) : List Char → Bool
  | [] => true
  | c :: _ => !(p c)

/-- `safe_filename_base(s, max_len=, preserve_blanks=)`. -/
def safe_filename_base (s : List Char) (max_len : Nat := 180)
    (preserve_blanks : Bool := false) : List Char :=
  let s5 := preTrunc s preserve_blanks
  let s6 := if max_len < s5.length then rdropW isDS (s5.take max_len) else s5
  if s6 = [] then untitled else s6

/-- A `pathlib.Path`: the parent directory as a list of segments plus the
final file name. -/
structure FPath where
  dir : List (List Char)
  fname : List Char
deriving DecidableEq, Repr

/-- Index of the last `'.'` in a name (`str.rfind('.')`), if any. -/
def lastDotIdx : List Char → Option Nat
  | [] => none
  | c :: cs =>
    match lastDotIdx cs with
    | some i => some (i + 1)
    | none => if c = '.' then some 0 else none

/-- `PurePath.suffix`: the extension from the last dot, present only when
that dot is neither the first nor the last character of the name. -/
def psuffix (name : List Char) : List Char :=
  match lastDotIdx name with
  | some i => if 0 < i ∧ i + 1 < name.length then name.drop i else []
  | none => []

/-- `PurePath.stem`: the name with `psuffix` removed. -/
def pstem (name : List Char) : List Char :=
  match lastDotIdx name with
  | some i => if 0 < i ∧ i + 1 < name.length then name.take i else name
  | none => name

/-- The filesystem: existing directories (as segment paths) and regular
files with abstract contents (`Nat` stands for the byte string).
Compatibility hardlinks/symlinks/copies are files sharing the content of
their target; the list order of `files` is the directory-iteration order. -/
structure FS where
  dirs : List (List (List Char))
  files : List (FPath × Nat)
deriving DecidableEq, Repr

/-- `Path.exists()` for a segment path: a directory or a file lives there. -/
def FS.existsSeg (fs : FS) (seg : List (List Char)) : Bool :=
  seg ∈ fs.dirs || fs.files.any (fun q => q.1.dir ++ [q.1.fname] = seg)

/-- `Path.exists()` for a dir-plus-name path. -/
def FS.existsP (fs : FS) (p : FPath) : Bool :=
  fs.existsSeg (p.dir ++ [p.fname])

/-- The candidate `p.with_name(f"{stem}__{i}{suf}")` probed by `unique_path`. -/
def candName (p : FPath) (i : Nat) : FPath :=
  ⟨p.dir, pstem p.fname ++ '_' :: '_' :: (natDecimal i ++ psuffix p.fname)⟩

/-- Every name length occurring in the filesystem (file names and
directory segments); used to bound the `unique_path` search. -/
def nameBound (fs : FS) : Nat :=
  (fs.files.map (fun (q : FPath × Nat) => q.1.fname.length) ++
    fs.dirs.foldr (fun (d : List (List Char)) (acc : List Nat) =>
      d.map List.length ++ acc) []).foldr max 0

/-- The `while True` search of `unique_path`, fuelled; the fuel chosen in
`unique_path` is large enough that the default branch is never reached
(every filesystem is finite while the candidate names grow unboundedly). -/
def uniquePathLoop (fs : FS) (p : FPath) : Nat → Nat → FPath
  | i, 0 => candName p i
  | i, fuel + 1 =>
    if fs.existsP (candName p i) then uniquePathLoop fs p (i + 1) fuel
    else candName p i

/-- `unique_path(p)`: return `p` unless it exists, else append `__2`,
`__3`, … before the suffix until a free name is found. -/
def unique_path (fs : FS) (p : FPath) : FPath :=
  if fs.existsP p then uniquePathLoop fs p 2 (10 ^ (nameBound fs + 1))
  else p

/-- `find_by_stem(folder, stem)`: first regular file in the folder whose
stem matches case-insensitively, in directory-iteration order. -/
def find_by_stem (fs : FS) (folder : List (List Char)) (stem : List Char) :
    Option FPath :=
  ((fs.files.map Prod.fst).find? (fun q =>
    q.dir = folder && (pstem q.fname).map lowerChar = stem.map lowerChar))

/-- A manifest piece, with the fields `build_rename_ops` reads.  `[]` for
`short_id`/`title` models both a missing key and an empty string (the code
only tests their truthiness before use). -/
structure Piece where
  short_id : List Char
  title : List Char
  attachment : Option (List Char)
deriving DecidableEq, Repr

/-- The `keep_mode` values `"none"` / `"link"` / `"copy"`. -/
inductive KeepMode
  | keepNone
  | keepLink
  | keepCopy
deriving DecidableEq, Repr

/-- The `RenameOp` dataclass of `allihoopa_tool.py`.  Its fields are
exactly `kind, short_id, title, src, dst, keep_mode` — there is no
`keep_link` attribute, which is what makes line 303 of the executor
raise `AttributeError`. -/
structure RenameOp where
  kind : List Char
  short_id : List Char
  title : List Char
  src : FPath
  dst : FPath
  keep_mode : KeepMode
deriving DecidableEq, Repr

/-- One journal line, as produced by `RenameOp.to_json`: note the JSON
key is `"keep_link"` but it carries the `keep_mode` value. -/
structure JRec where
  kind : List Char
  short_id : List Char
  title : List Char
  src : FPath
  dst : FPath
  keep_link : KeepMode
deriving DecidableEq, Repr

/-- `RenameOp.to_json`. -/
def RenameOp.to_json (op : RenameOp) : JRec :=
  ⟨op.kind, op.short_id, op.title, op.src, op.dst, op.keep_mode⟩

/-- Warnings collected by the planner (message text abstracted to tags). -/
inductive Warn
  | noShortId
  | folderMissing (sid : List Char)
  | audioMissing (sid : List Char)
  | coverMissing (sid : List Char)
  | attachMissing (sid : List Char) (attach : List Char)
deriving DecidableEq, Repr

/-- The per-piece body of the `build_rename_ops` loop. -/
def pieceOps (fs : FS) (pieces_dir : List (List Char))
    (username_clean : List Char) (preserve_blanks : Bool)
    (keep_mode : KeepMode) (piece : Piece) : List RenameOp × List Warn :=
  let sid := piece.short_id
  let title := if piece.title = [] then untitled else piece.title
  if sid = [] then ([], [.noShortId])
  else
    let folder := pieces_dir ++ [sid]
    if ¬ fs.existsSeg folder then ([], [.folderMissing sid])
    else
      let base := safe_filename_base (username_clean ++ " - ".data ++ title)
        180 preserve_blanks
      -- AUDIO: prefer common names / stem "audio"
      let audioCands : List FPath :=
        [⟨folder, "audio.mp4".data⟩, ⟨folder, "audio.m4a".data⟩,
         ⟨folder, "audio.wav".data⟩, ⟨folder, "audio.aac".data⟩]
      let audio_src :=
        match audioCands.find? (fun c => fs.existsP c) with
        | some c => some c
        | none => find_by_stem fs folder "audio".data
      let audioPart : List RenameOp × List Warn :=
        match audio_src with
        | some a =>
          let dst : FPath := ⟨folder, base ++ psuffix a.fname⟩
          if a.fname ≠ dst.fname ∧ ¬ fs.existsP dst then
            ([⟨"audio".data, sid, title, a, unique_path fs dst, keep_mode⟩], [])
          else ([], [])
        | none => ([], [.audioMissing sid])
      -- COVER: prefer cover.{jpg,jpeg,png} / stem "cover"
      let coverCands : List FPath :=
        [⟨folder, "cover.jpg".data⟩, ⟨folder, "cover.jpeg".data⟩,
         ⟨folder, "cover.png".data⟩]
      let cover_src :=
        match coverCands.find? (fun c => fs.existsP c) with
        | some c => some c
        | none => find_by_stem fs folder "cover".data
      let coverPart : List RenameOp × List Warn :=
        match cover_src with
        | some c =>
          let dst : FPath := ⟨folder, base ++ ".cover".data ++ psuffix c.fname⟩
          if c.fname ≠ dst.fname ∧ ¬ fs.existsP dst then
            ([⟨"cover".data, sid, title, c, unique_path fs dst, keep_mode⟩], [])
          else ([], [])
        | none => ([], [.coverMissing sid])
      -- ATTACHMENT (optional)
      let attachPart : List RenameOp × List Warn :=
        match piece.attachment with
        | some att =>
          if stripL att ≠ [] then
            let asrc : FPath := ⟨folder, att⟩
            if fs.existsP asrc then
              let dst : FPath := ⟨folder, base ++ psuffix att⟩
              if att ≠ dst.fname ∧ ¬ fs.existsP dst then
                ([⟨"attachment".data, sid, title, asrc, unique_path fs dst,
                   keep_mode⟩], [])
              else ([], [])
            else ([], [.attachMissing sid att])
          else ([], [])
        | none => ([], [])
      (audioPart.1 ++ coverPart.1 ++ attachPart.1,
       audioPart.2 ++ coverPart.2 ++ attachPart.2)

/-- `build_rename_ops(pieces, pieces_dir, username, preserve_blanks,
keep_mode)` against the filesystem `fs`. -/
def build_rename_ops (pieces : List Piece) (pieces_dir : List (List Char))
    (username : List Char) (preserve_blanks : Bool) (keep_mode : KeepMode)
    (fs : FS) : List RenameOp × List Warn :=
  let username_clean := safe_filename_base username 180 preserve_blanks
  pieces.foldl
    (fun acc piece =>
      let r := pieceOps fs pieces_dir username_clean preserve_blanks keep_mode piece
      (acc.1 ++ r.1, acc.2 ++ r.2))
    ([], [])

/-- Executor state: the filesystem plus the journal file's parsed records. -/
structure St where
  fs : FS
  journal : List JRec
deriving DecidableEq, Repr

/-- Python exceptions the embedding distinguishes. -/
inductive PyErr
  | attributeError
  | fileNotFound
deriving DecidableEq, Repr

/-- `log_path.parent.mkdir(parents=True, exist_ok=True)`: add the parent
directory and all its ancestors. -/
def mkdirParents (d : List (List Char)) (dirs : List (List (List Char))) :
    List (List (List Char)) :=
  dirs ++ ((List.range d.length).map (fun i => d.take (i + 1))).filter
    (fun x => x ∉ dirs)

/-- `src.rename(dst)` (POSIX): fails if `src` is missing or a directory
sits at `dst`; silently replaces a regular file at `dst`. -/
def renameFile (fs : FS) (src dst : FPath) : Option FS :=
  if (dst.dir ++ [dst.fname]) ∈ fs.dirs then none
  else
    match fs.files.find? (fun q => q.1 = src) with
    | none => none
    | some _ =>
      some { fs with files :=
        ((fs.files.filter (fun q => q.1 ≠ dst)).map
          (fun q => if q.1 = src then (dst, q.2) else q)) }

/-- `ensure_compat_link(old, new)`: no-op if `old` exists, else leave a
link at `old` to `new` (in the content model: a file with `new`'s bytes;
the hardlink/symlink distinction is invisible to the claims). -/
def ensure_compat_link (fs : FS) (old newP : FPath) : FS :=
  if fs.existsP old then fs
  else
    match fs.files.find? (fun q => q.1 = newP) with
    | some q => { fs with files := fs.files ++ [(old, q.2)] }
    | none => fs

/-- `ensure_compat_copy(old, new)`: no-op if `old` exists, else
`shutil.copy2(new, old)` — in the content model the same effect as a link. -/
def ensure_compat_copy (fs : FS) (old newP : FPath) : FS :=
  if fs.existsP old then fs
  else
    match fs.files.find? (fun q => q.1 = newP) with
    | some q => { fs with files := fs.files ++ [(old, q.2)] }
    | none => fs

/-- One iteration of the apply loop of `apply_rename_ops` (lines
281-310): skip if `dst` exists, rename, run the `keep_mode` compat step,
then evaluate `op.keep_link` — an attribute `RenameOp` does not have, so
the iteration ends in `AttributeError` and the journal append on lines
309-310 is never reached. -/
def applyStep (op : RenameOp) (st : St) : St × Option PyErr :=
  if st.fs.existsP op.dst then (st, none)
  else
    match renameFile st.fs op.src op.dst with
    | none => (st, some .fileNotFound)
    | some fs1 =>
      let fs2 :=
        match op.keep_mode with
        | .keepLink => ensure_compat_link fs1 op.src op.dst
        | .keepCopy => ensure_compat_copy fs1 op.src op.dst
        | .keepNone => fs1
      ({ st with fs := fs2 }, some .attributeError)

/-- The apply loop: run steps until one raises. -/
def applyList : List RenameOp → St → St × Option PyErr
  | [], st => (st, none)
  | op :: ops, st =>
    let r := applyStep op st
    match r.2 with
    | some e => (r.1, some e)
    | none => applyList ops r.1

/-- `apply_rename_ops(ops, log_path, dry_run)`: make the log's parent
directory, then either print the plan (`dry_run`) or execute it. -/
def apply_rename_ops (ops : List RenameOp) (log_path : FPath)
    (dry_run : Bool) (st : St) : St × Option PyErr :=
  let st1 := { st with fs := { st.fs with dirs := mkdirParents log_path.dir st.fs.dirs } }
  if ops = [] then (st1, none)
  else if dry_run then (st1, none)
  else applyList ops st1

/-- One journal record processed by the undo loop (lines 338-374). -/
def undoStep (e : JRec) (dry_run : Bool) (fs : FS) : FS :=
  if ¬ fs.existsP e.dst then fs
  else
    let fs1 :=
      if fs.existsP e.src then
        if (e.src.dir ++ [e.src.fname]) ∈ fs.dirs then fs
        else if dry_run then fs
        else { fs with files := fs.files.filter (fun q => q.1 ≠ e.src) }
      else fs
    if dry_run then fs1
    else
      match renameFile fs1 e.dst e.src with
      | some fs2 => fs2
      | none => fs1

/-- `undo_rename_from_log(log_path, dry_run)`: the parsed journal records
(corrupt/blank lines already dropped) are replayed in reverse order. -/
def undo_rename_from_log (journal : List JRec) (dry_run : Bool) (fs : FS) :
    FS :=
  if journal = [] then fs
  else journal.reverse.foldl (fun f e => undoStep e dry_run f) fs

/-- The rename-subcommand flags `build_cli` declares on the parsed
namespace.  There is deliberately no `keep_mode` field: argparse creates
attributes only for declared options (`--keep-link` / `--keep-copy`). -/
structure Args where
  undo : Bool
  apply : Bool
  dry_run : Bool
  keep_link : Bool
  keep_copy : Bool
  preserve_blanks : Bool
deriving DecidableEq, Repr

/-- The `rename` branch of `main` (lines 717-751).  Guards first (missing
manifest / pieces dir / `pieces` list exit with 2), the undo path next;
otherwise `main` computes a local `keep_mode` but passes `args.keep_mode`
to `build_rename_ops` — an attribute that does not exist — so the call
raises `AttributeError` before any operation is planned or executed. -/
def mainRename (args : Args) (meta_exists pieces_dir_exists : Bool)
    (pieces : Option (List Piece)) (st : St) :
    St × Except PyErr Nat :=
  if meta_exists = false then (st, .ok 2)
  else if pieces_dir_exists = false then (st, .ok 2)
  else
    let dry_run := args.dry_run || (!args.apply && !args.undo)
    if args.undo then
      ({ st with fs := undo_rename_from_log st.journal dry_run st.fs }, .ok 0)
    else
      match pieces with
      | none => (st, .ok 2)
      | some _ => (st, .error .attributeError)

/-- `(username or "").strip().casefold()`. -/
def userNorm (username : Option (List Char)) : List Char :=
  (stripL (username.getD [])).map lowerChar

/-- The collaborator-filtering loop of `build_comment`: drop falsy
entries, trim, drop the uploader's own name (case-insensitively), and
de-duplicate case-insensitively while preserving order. -/
def buildCols (user_norm : List Char) (seen : List (List Char)) :
    List (List Char) → List (List Char)
  | [] => []
  | c :: rest =>
    if c = [] then buildCols user_norm seen rest
    else
      let c_clean := stripL c
      if c_clean = [] then buildCols user_norm seen rest
      else
        let c_norm := c_clean.map lowerChar
        if user_norm ≠ [] ∧ c_norm = user_norm then buildCols user_norm seen rest
        else if c_norm ∈ seen then buildCols user_norm seen rest
        else c_clean :: buildCols user_norm (c_norm :: seen) rest

/-- `"\n".join(cols)`. -/
def joinNL : List (List Char) → List Char
  | [] => []
  | [x] => x
  | x :: y :: xs => x ++ '\n' :: joinNL (y :: xs)

/-- `build_comment(description, collaborators, username)`. -/
def build_comment (description : Option (List Char))
    (collaborators : Option (List (List Char)))
    (username : Option (List Char)) : List Char :=
  let desc := rdropW isWS (description.getD [])
  let user_norm := userNorm username
  let cols := buildCols user_norm [] (collaborators.getD [])
  if cols = [] then desc
  else
    let tail := "Collaborators:\n".data ++ joinNL cols
    if desc = [] then tail else desc ++ "\n\n".data ++ tail

/-! ### Concrete scenarios used by counterexamples and witnesses -/

/-- A folder `d/` holding one audio file with contents `7`. -/
def st0c : St :=
  ⟨⟨[["d".data]], [(⟨["d".data], "audio.mp4".data⟩, 7)]⟩, []⟩

/-- A planned rename of that audio file, `keep_mode = "none"`. -/
def op0c : RenameOp :=
  ⟨"audio".data, "s".data, "t".data, ⟨["d".data], "audio.mp4".data⟩,
   ⟨["d".data], "new.mp4".data⟩, KeepMode.keepNone⟩

/-- A journal path whose parent directory `lg/` does not exist yet. -/
def log0c : FPath := ⟨["lg".data], "rename_log.jsonl".data⟩

/-- Result of executing the one-operation plan in apply mode. -/
def applyRes : St × Option PyErr := apply_rename_ops [op0c] log0c false st0c

/-- Result of then undoing from the journal that execution produced. -/
def undoRes : FS :=
  undo_rename_from_log applyRes.1.journal false applyRes.1.fs

/-- Pieces directory content for the C8 example: piece folder `abc123`
with `audio.mp4` and `cover.jpg`. -/
def fs8c : FS :=
  ⟨[["pieces".data], ["pieces".data, "abc123".data]],
   [(⟨["pieces".data, "abc123".data], "audio.mp4".data⟩, 1),
    (⟨["pieces".data, "abc123".data], "cover.jpg".data⟩, 2)]⟩

/-- The C8 plan: piece `abc123` titled `My Song`, username `jdoe`,
default options. -/
def plan8 : List RenameOp :=
  (build_rename_ops [⟨"abc123".data, "My Song".data, none⟩] [ "pieces".data]
    "jdoe".data false KeepMode.keepNone fs8c).1

/-- Two piece folders, each with an `audio.mp4`, for the C7 example. -/
def fs7c : FS :=
  ⟨[["pieces".data], ["pieces".data, "p1".data], ["pieces".data, "p2".data]],
   [(⟨["pieces".data, "p1".data], "audio.mp4".data⟩, 1),
    (⟨["pieces".data, "p2".data], "audio.mp4".data⟩, 2)]⟩

/-- The C7 plan: two pieces with the same title (hence the same
sanitized base), username `u`, default options. -/
def plan7 : List RenameOp :=
  (build_rename_ops [⟨"p1".data, "Song".data, none⟩, ⟨"p2".data, "Song".data, none⟩]
    [ "pieces".data] "u".data false KeepMode.keepNone fs7c).1

/-- An input on which the sanitizer's output is not a fixed point. -/
def cexC4 : List Char := "a<>b".data

/-- A long input whose truncated sanitized form is the reserved name
`CON`: `"CON"` followed by 177 dots and an `X` (181 characters). -/
def cexC5 : List Char := "CON".data ++ (List.replicate 177 '.' ++ ['X'])

/-- An existing path probed twice by `unique_path` in the C6
counterexample. -/
def pC6 : FPath := ⟨["d".data], "a.mp4".data⟩

/-- Filesystem in which `pC6` exists. -/
def fsC6 : FS := ⟨[["d".data]], [(pC6, 0)]⟩

/-- Arguments for the C9 witness: plain `rename` (no flags). -/
def argsW : Args := ⟨false, false, false, false, false, false⟩

/-- Empty state for the C9 witness. -/
def stW : St := ⟨⟨[], []⟩, []⟩

end Allihoopa

namespace Allihoopa

/-! ### Helper lemmas about the list primitives -/

theorem mem_rdropW {p : Char → Bool} {c : Char} {l : List Char}
    (h : c ∈ rdropW p l) : c ∈ l := by
  induction l with
  | nil => simp [rdropW] at h
  | cons a l ih =>
    simp only [rdropW] at h
    split at h
    · exact absurd h (List.not_mem_nil c)
    · rcases List.mem_cons.mp h with h | h
      · exact h ▸ List.mem_cons_self _ _
      · exact List.mem_cons_of_mem _ (ih h)

theorem rdropW_cons_cases (p : Char → Bool) (a : Char) (l : List Char) :
    rdropW p (a :: l) = [] ∨ rdropW p (a :: l) = a :: rdropW p l := by
  simp only [rdropW]
  split
  · exact Or.inl rfl
  · exact Or.inr rfl

theorem lastO_cons_cons (a b : Char) (l : List Char) :
    lastO (a :: b :: l) = lastO (b :: l) := rfl

theorem mem_lastO {c : Char} : ∀ {l : List Char}, lastO l = some c → c ∈ l
  | [], h => by simp [lastO] at h
  | [a], h => by
    simp [lastO] at h
    simp [h]
  | a :: b :: l, h => by
    rw [lastO_cons_cons] at h
    exact List.mem_cons_of_mem _ (mem_lastO h)

theorem endsP_of_lastO {p : Char → Bool} {c : Char} {l : List Char}
    (h : lastO l = some c) : endsP p l = p c := by
  simp [endsP, h]

theorem endsP_nil (p : Char → Bool) : endsP p [] = false := rfl

theorem endsP_false_mono {p q : Char → Bool} {l : List Char}
    (himp : ∀ c ∈ l, p c = true → q c = true)
    (hq : endsP q l = false) : endsP p l = false := by
  cases hl : lastO l with
  | none => simp [endsP, hl]
  | some c =>
    rw [endsP_of_lastO hl]
    rw [endsP_of_lastO hl] at hq
    by_cases hp : p c = true
    · exact absurd (himp c (mem_lastO hl) hp) (by simp [hq])
    · simpa using hp

theorem rdropW_cons_eq (p : Char → Bool) (a : Char) (l : List Char) :
    rdropW p (a :: l) = if rdropW p l = [] && p a then [] else a :: rdropW p l := by
  simp [rdropW]

theorem rdropW_eq_self_of_not_endsP {p : Char → Bool} :
    ∀ {l : List Char}, endsP p l = false → rdropW p l = l
  | [], _ => rfl
  | [a], h => by
    have ha : p a = false := by simpa [endsP, lastO] using h
    simp [rdropW, ha]
  | a :: b :: l, h => by
    have htail : endsP p (b :: l) = false := by
      simpa [endsP, lastO_cons_cons] using h
    have ih := rdropW_eq_self_of_not_endsP (p := p) htail
    rw [rdropW_cons_eq, ih]
    simp

theorem endsP_rdropW (p : Char → Bool) :
    ∀ (l : List Char), endsP p (rdropW p l) = false
  | [] => rfl
  | a :: l => by
    rcases rdropW_cons_cases p a l with h | h
    · simp [h, endsP, lastO]
    · rw [h]
      cases hr : rdropW p l with
      | nil =>
        have ha : p a = false := by
          by_contra hc
          have hc' : p a = true := by simpa using hc
          have hnil : rdropW p (a :: l) = [] := by
            rw [rdropW_cons_eq, hr, hc']
            simp
          rw [h, hr] at hnil
          exact absurd hnil (by simp)
        simp [endsP, lastO, ha]
      | cons b t =>
        have := endsP_rdropW p l
        rw [hr] at this
        simpa [endsP, lastO_cons_cons] using this

theorem headNot_dropWhile (p : Char → Bool) (l : List Char) :
    headNot p (l.dropWhile p) = true := by
  induction l with
  | nil => rfl
  | cons a l ih =>
    by_cases ha : p a
    · simpa [List.dropWhile, ha] using ih
    · simp [List.dropWhile, ha, headNot]

theorem dropWhile_eq_self_of_headNot {p : Char → Bool} {l : List Char}
    (h : headNot p l = true) : l.dropWhile p = l := by
  cases l with
  | nil => rfl
  | cons a l =>
    have : p a = false := by simpa [headNot] using h
    simp [List.dropWhile, this]

theorem mem_dropWhile {p : Char → Bool} {c : Char} {l : List Char}
    (h : c ∈ l.dropWhile p) : c ∈ l := by
  induction l with
  | nil => simp at h
  | cons a l ih =>
    by_cases ha : p a
    · simp only [List.dropWhile, ha] at h
      exact List.mem_cons_of_mem _ (ih (by simpa using h))
    · rw [List.dropWhile_cons_of_neg (by simpa using ha)] at h
      exact h

theorem mem_stripL {c : Char} {l : List Char} (h : c ∈ stripL l) : c ∈ l :=
  mem_dropWhile (mem_rdropW h)

theorem noTwoAdj_cons_cons (p : Char → Bool) (a b : Char) (l : List Char) :
    noTwoAdj p (a :: b :: l) = ((!(p a && p b)) && noTwoAdj p (b :: l)) := rfl

theorem noTwoAdj_tail {p : Char → Bool} {a : Char} {l : List Char}
    (h : noTwoAdj p (a :: l) = true) : noTwoAdj p l = true := by
  cases l with
  | nil => rfl
  | cons b t =>
    rw [noTwoAdj_cons_cons] at h
    exact ((Bool.and_eq_true _ _).mp h).2

theorem headNot_of_adj {p : Char → Bool} {a b : Char} {t : List Char}
    (h : noTwoAdj p (a :: b :: t) = true) : p a = false ∨ p b = false := by
  rw [noTwoAdj_cons_cons] at h
  have hab := ((Bool.and_eq_true _ _).mp h).1
  by_cases hpa : p a = true
  · right
    by_contra hpb
    simp [hpa, (by simpa using hpb : p b = true)] at hab
  · left
    simpa using hpa

theorem noTwoAdj_cons {p : Char → Bool} {x : Char} {l : List Char}
    (hl : noTwoAdj p l = true) (hx : headNot p l = true ∨ p x = false) :
    noTwoAdj p (x :: l) = true := by
  cases l with
  | nil => rfl
  | cons b t =>
    rw [noTwoAdj_cons_cons]
    have hb : (!(p x && p b)) = true := by
      rcases hx with h | h
      · have : p b = false := by simpa [headNot] using h
        simp [this]
      · simp [h]
    simp [hb, hl]

theorem headNot_of_all {p : Char → Bool} {l : List Char}
    (h : ∀ c ∈ l, p c = false) : headNot p l = true := by
  cases l with
  | nil => rfl
  | cons a t => simp [headNot, h a (List.mem_cons_self a t)]

theorem noTwoAdj_of_all {p : Char → Bool} {l : List Char}
    (h : ∀ c ∈ l, p c = false) : noTwoAdj p l = true := by
  induction l with
  | nil => rfl
  | cons a t ih =>
    refine noTwoAdj_cons (ih fun c hc => h c (List.mem_cons_of_mem _ hc)) ?_
    exact Or.inr (h a (List.mem_cons_self a t))

theorem mem_collapseRunsAux {p : Char → Bool} {r c : Char} {l : List Char} :
    ∀ {prev : Bool}, c ∈ collapseRunsAux p r prev l →
      c = r ∨ (c ∈ l ∧ p c = false) := by
  induction l with
  | nil => intro prev h; simp [collapseRunsAux] at h
  | cons a l ih =>
    intro prev h
    by_cases hpa : p a = true
    · cases prev with
      | true =>
        rw [collapseRunsAux, if_pos hpa, if_pos rfl] at h
        rcases ih h with h | ⟨h1, h2⟩
        · exact Or.inl h
        · exact Or.inr ⟨List.mem_cons_of_mem _ h1, h2⟩
      | false =>
        rw [collapseRunsAux, if_pos hpa] at h
        simp only [Bool.false_eq_true, if_false] at h
        rcases List.mem_cons.mp h with h | h
        · exact Or.inl h
        · rcases ih h with h | ⟨h1, h2⟩
          · exact Or.inl h
          · exact Or.inr ⟨List.mem_cons_of_mem _ h1, h2⟩
    · rw [collapseRunsAux, if_neg hpa] at h
      rcases List.mem_cons.mp h with h | h
      · exact Or.inr ⟨h ▸ List.mem_cons_self _ _, h ▸ (by simpa using hpa)⟩
      · rcases ih h with h | ⟨h1, h2⟩
        · exact Or.inl h
        · exact Or.inr ⟨List.mem_cons_of_mem _ h1, h2⟩

theorem headNot_collapseRunsAux_true {p : Char → Bool} {r : Char} :
    ∀ (l : List Char), headNot p (collapseRunsAux p r true l) = true
  | [] => rfl
  | a :: l => by
    by_cases hpa : p a = true
    · rw [collapseRunsAux, if_pos hpa, if_pos rfl]
      exact headNot_collapseRunsAux_true l
    · rw [collapseRunsAux, if_neg hpa]
      simpa [headNot] using hpa

theorem noTwoAdj_collapseRunsAux {p : Char → Bool} {r : Char} :
    ∀ (l : List Char) (prev : Bool),
      noTwoAdj p (collapseRunsAux p r prev l) = true
  | [], _ => rfl
  | a :: l, prev => by
    by_cases hpa : p a = true
    · cases prev with
      | true =>
        rw [collapseRunsAux, if_pos hpa, if_pos rfl]
        exact noTwoAdj_collapseRunsAux l true
      | false =>
        rw [collapseRunsAux, if_pos hpa]
        simp only [Bool.false_eq_true, if_false]
        exact noTwoAdj_cons (noTwoAdj_collapseRunsAux l true)
          (Or.inl (headNot_collapseRunsAux_true l))
    · rw [collapseRunsAux, if_neg hpa]
      exact noTwoAdj_cons (noTwoAdj_collapseRunsAux l false)
        (Or.inr (by simpa using hpa))

theorem headNot_collapseRunsAux_false {p : Char → Bool} {r : Char}
    {l : List Char} (h : headNot p l = true) :
    headNot p (collapseRunsAux p r false l) = true := by
  cases l with
  | nil => rfl
  | cons a t =>
    have hpa : p a = false := by simpa [headNot] using h
    rw [collapseRunsAux, if_neg (by simp [hpa])]
    simp [headNot, hpa]

theorem collapseRunsAux_fixed {p : Char → Bool} {r : Char} :
    ∀ {l : List Char}, (∀ c ∈ l, p c = true → c = r) → noTwoAdj p l = true →
      (collapseRunsAux p r false l = l ∧
        (headNot p l = true → collapseRunsAux p r true l = l)) := by
  intro l
  induction l with
  | nil => exact fun _ _ => ⟨rfl, fun _ => rfl⟩
  | cons a l ih =>
    intro hmem hadj
    obtain ⟨ihf, iht⟩ :=
      ih (fun c hc => hmem c (List.mem_cons_of_mem _ hc)) (noTwoAdj_tail hadj)
    constructor
    · by_cases hpa : p a = true
      · have har : a = r := hmem a (List.mem_cons_self _ _) hpa
        have hhead : headNot p l = true := by
          cases l with
          | nil => rfl
          | cons b t =>
            rcases headNot_of_adj hadj with h | h
            · rw [h] at hpa; exact absurd hpa (by simp)
            · simp [headNot, h]
        rw [collapseRunsAux, if_pos hpa]
        simp only [Bool.false_eq_true, if_false]
        rw [iht hhead, har]
      · rw [collapseRunsAux, if_neg hpa, ihf]
    · intro hh
      have hpa : p a = false := by simpa [headNot] using hh
      rw [collapseRunsAux, if_neg (by simp [hpa]), ihf]

theorem headNot_map {p : Char → Bool} {g : Char → Char} {l : List Char}
    (hg : ∀ c, p (g c) = true → p c = true) (h : headNot p l = true) :
    headNot p (l.map g) = true := by
  cases l with
  | nil => rfl
  | cons a t =>
    have hpa : p a = false := by simpa [headNot] using h
    have hga : p (g a) = false := by
      by_contra hc
      have := hg a (by simpa using hc)
      simp [this] at hpa
    simp [headNot, hga]

theorem noTwoAdj_map {p : Char → Bool} {g : Char → Char}
    (hg : ∀ c, p (g c) = true → p c = true) :
    ∀ {l : List Char}, noTwoAdj p l = true → noTwoAdj p (l.map g) = true := by
  intro l
  induction l with
  | nil => intro _; rfl
  | cons a t ih =>
    intro h
    rw [List.map_cons]
    refine noTwoAdj_cons (ih (noTwoAdj_tail h)) ?_
    cases t with
    | nil => exact Or.inl rfl
    | cons b t' =>
      rcases headNot_of_adj h with h1 | h2
      · right
        by_contra hc
        have := hg a (by simpa using hc)
        simp [this] at h1
      · left
        have hgb : p (g b) = false := by
          by_contra hc
          have := hg b (by simpa using hc)
          simp [this] at h2
        simp [headNot, hgb]

theorem headNot_take {p : Char → Bool} {l : List Char}
    (h : headNot p l = true) (n : Nat) : headNot p (l.take n) = true := by
  cases l with
  | nil => simp [headNot]
  | cons a t =>
    cases n with
    | zero => rfl
    | succ k => simpa [headNot, List.take] using h

theorem noTwoAdj_take {p : Char → Bool} :
    ∀ {l : List Char} (n : Nat), noTwoAdj p l = true →
      noTwoAdj p (l.take n) = true := by
  intro l
  induction l with
  | nil => intro n _; cases n <;> rfl
  | cons a t ih =>
    intro n h
    cases n with
    | zero => rfl
    | succ k =>
      rw [List.take_succ_cons]
      refine noTwoAdj_cons (ih k (noTwoAdj_tail h)) ?_
      cases t with
      | nil => exact Or.inl (by simp [headNot])
      | cons b t' =>
        cases k with
        | zero => exact Or.inl rfl
        | succ j =>
          rcases headNot_of_adj h with h1 | h2
          · exact Or.inr h1
          · exact Or.inl (by simpa [headNot, List.take] using h2)

theorem lastO_cons {a : Char} {l : List Char} (h : l ≠ []) :
    lastO (a :: l) = lastO l := by
  cases l with
  | nil => exact absurd rfl h
  | cons b t => exact lastO_cons_cons a b t

theorem lastO_append_single (l : List Char) (y : Char) :
    lastO (l ++ [y]) = some y := by
  induction l with
  | nil => rfl
  | cons a t ih =>
    rw [List.cons_append, lastO_cons (by simp), ih]

theorem noTwoAdj_append_single {p : Char → Bool} {y : Char} {l : List Char}
    (hy : p y = false) (h : noTwoAdj p l = true) :
    noTwoAdj p (l ++ [y]) = true := by
  induction l with
  | nil => rfl
  | cons a t ih =>
    rw [List.cons_append]
    refine noTwoAdj_cons (ih (noTwoAdj_tail h)) ?_
    cases t with
    | nil => exact Or.inl (by simp [headNot, hy])
    | cons b t' =>
      rcases headNot_of_adj h with h1 | h2
      · exact Or.inr h1
      · exact Or.inl (by simp [headNot, h2])

theorem headNot_rdropW {p q : Char → Bool} {l : List Char}
    (h : headNot p l = true) : headNot p (rdropW q l) = true := by
  cases l with
  | nil => rfl
  | cons a t =>
    rcases rdropW_cons_cases q a t with hc | hc
    · rw [hc]; rfl
    · rw [hc]; simpa [headNot] using h

theorem noTwoAdj_rdropW {p q : Char → Bool} :
    ∀ {l : List Char}, noTwoAdj p l = true → noTwoAdj p (rdropW q l) = true := by
  intro l
  induction l with
  | nil => intro _; rfl
  | cons a t ih =>
    intro h
    rcases rdropW_cons_cases q a t with hc | hc
    · rw [hc]; rfl
    · rw [hc]
      refine noTwoAdj_cons (ih (noTwoAdj_tail h)) ?_
      cases ht : rdropW q t with
      | nil => exact Or.inl rfl
      | cons b t' =>
        cases t with
        | nil => simp [rdropW] at ht
        | cons c u =>
          rcases rdropW_cons_cases q c u with h2 | h2
          · rw [h2] at ht; exact absurd ht (by simp)
          · rw [h2] at ht
            have hcb : c = b := (List.cons.injEq _ _ _ _).mp ht |>.1
            rcases headNot_of_adj h with h1 | h1
            · exact Or.inr h1
            · exact Or.inl (by simp [headNot, hcb ▸ h1])

theorem illegalToU_ws {c : Char} (h : isWS (illegalToU c) = true) :
    isWS c = true := by
  by_cases hc : isIllegal c = true
  · rw [illegalToU, if_pos hc] at h
    exact absurd h (by decide)
  · rwa [illegalToU, if_neg hc] at h

theorem illegalToU_eq_of_ws {c : Char} (h : isWS (illegalToU c) = true) :
    illegalToU c = c := by
  by_cases hc : isIllegal c = true
  · rw [illegalToU, if_pos hc] at h ⊢
    exact absurd h (by decide)
  · rw [illegalToU, if_neg hc]

theorem isIllegal_illegalToU (c : Char) : isIllegal (illegalToU c) = false := by
  by_cases hc : isIllegal c = true
  · rw [illegalToU, if_pos hc]; decide
  · rw [illegalToU, if_neg hc]; simpa using hc

theorem wsNormalize_noWS {l : List Char} :
    ∀ c ∈ wsNormalize false l, isWS c = false := by
  intro c hc
  rcases mem_collapseRunsAux hc with h | ⟨h1, _⟩
  · rw [h]; decide
  · rcases mem_collapseRunsAux h1 with h | ⟨_, h3⟩
    · rw [h]; decide
    · exact h3

theorem wsNormalize_ws_space (b : Bool) (l : List Char) :
    ∀ c ∈ wsNormalize b l, isWS c = true → c = ' ' := by
  cases b with
  | false =>
    intro c hc hw
    rw [wsNormalize_noWS c hc] at hw
    exact absurd hw (by simp)
  | true =>
    intro c hc hw
    rcases mem_collapseRunsAux hc with h | ⟨_, h2⟩
    · exact h
    · rw [h2] at hw
      exact absurd hw (by simp)

theorem wsNormalize_noTwoAdj (b : Bool) (l : List Char) :
    noTwoAdj isWS (wsNormalize b l) = true := by
  cases b with
  | false => exact noTwoAdj_of_all wsNormalize_noWS
  | true => exact noTwoAdj_collapseRunsAux l false

theorem wsNormalize_headNot (b : Bool) {l : List Char}
    (h : headNot isWS l = true) : headNot isWS (wsNormalize b l) = true := by
  cases b with
  | false => exact headNot_of_all wsNormalize_noWS
  | true => exact headNot_collapseRunsAux_false h

theorem map_id_of_mem {g : Char → Char} :
    ∀ {l : List Char}, (∀ c ∈ l, g c = c) → l.map g = l := by
  intro l
  induction l with
  | nil => intro _; rfl
  | cons a t ih =>
    intro h
    rw [List.map_cons, h a (List.mem_cons_self _ _),
      ih (fun c hc => h c (List.mem_cons_of_mem _ hc))]

/-- Invariants of `preTrunc`'s output: no illegal characters, no
trailing dot/space, whitespace-free head, all whitespace is a single
space with no two adjacent, and (in the default mode) no whitespace at
all. -/
theorem preTrunc_facts (s : List Char) (b : Bool) :
    (∀ c ∈ preTrunc s b, isIllegal c = false) ∧
    endsP isDS (preTrunc s b) = false ∧
    headNot isWS (preTrunc s b) = true ∧
    (∀ c ∈ preTrunc s b, isWS c = true → c = ' ') ∧
    noTwoAdj isWS (preTrunc s b) = true ∧
    (b = false → ∀ c ∈ preTrunc s b, isWS c = false) := by
  simp only [preTrunc]
  set s1 := wsNormalize b (stripL s) with hs1def
  set s2 := (if s1 = [] then untitled else s1) with hs2def
  set s3 := s2.map illegalToU with hs3def
  set s4 := rdropW isDS s3 with hs4def
  have f2ws : ∀ c ∈ s2, isWS c = true → c = ' ' := by
    rw [hs2def]; split
    · decide
    · exact wsNormalize_ws_space b _
  have f2adj : noTwoAdj isWS s2 = true := by
    rw [hs2def]; split
    · decide
    · exact wsNormalize_noTwoAdj b _
  have f2head : headNot isWS s2 = true := by
    rw [hs2def]; split
    · decide
    · exact wsNormalize_headNot b (headNot_rdropW (headNot_dropWhile isWS s))
  have f2no : b = false → ∀ c ∈ s2, isWS c = false := by
    intro hb
    rw [hs2def]; split
    · decide
    · intro c hc
      rw [hs1def, hb] at hc
      exact wsNormalize_noWS c hc
  have f3ill : ∀ c ∈ s3, isIllegal c = false := by
    rw [hs3def]
    intro c hc
    rcases List.mem_map.mp hc with ⟨a, _, rfl⟩
    exact isIllegal_illegalToU a
  have f3ws : ∀ c ∈ s3, isWS c = true → c = ' ' := by
    rw [hs3def]
    intro c hc hw
    rcases List.mem_map.mp hc with ⟨a, ha, rfl⟩
    rw [illegalToU_eq_of_ws hw]
    rw [illegalToU_eq_of_ws hw] at hw
    exact f2ws a ha hw
  have f3adj : noTwoAdj isWS s3 = true := by
    rw [hs3def]
    exact noTwoAdj_map (fun c => illegalToU_ws) f2adj
  have f3head : headNot isWS s3 = true := by
    rw [hs3def]
    exact headNot_map (fun c => illegalToU_ws) f2head
  have f3no : b = false → ∀ c ∈ s3, isWS c = false := by
    intro hb
    rw [hs3def]
    intro c hc
    rcases List.mem_map.mp hc with ⟨a, ha, rfl⟩
    by_cases hia : isIllegal a = true
    · rw [illegalToU, if_pos hia]; decide
    · rw [illegalToU, if_neg hia]
      exact f2no hb a ha
  have f4ill : ∀ c ∈ s4, isIllegal c = false := fun c hc => f3ill c (mem_rdropW hc)
  have f4ws : ∀ c ∈ s4, isWS c = true → c = ' ' := fun c hc => f3ws c (mem_rdropW hc)
  have f4adj : noTwoAdj isWS s4 = true := by
    rw [hs4def]; exact noTwoAdj_rdropW f3adj
  have f4head : headNot isWS s4 = true := by
    rw [hs4def]; exact headNot_rdropW f3head
  have f4no : b = false → ∀ c ∈ s4, isWS c = false :=
    fun hb c hc => f3no hb c (mem_rdropW hc)
  have f4ends : endsP isDS s4 = false := by
    rw [hs4def]; exact endsP_rdropW isDS s3
  split
  · -- reserved: the base is wrapped as `_<base>_`
    refine ⟨?_, ?_, ?_, ?_, ?_, ?_⟩
    · intro c hc
      rcases List.mem_cons.mp hc with rfl | hc
      · decide
      · rcases List.mem_append.mp hc with hc | hc
        · exact f4ill c hc
        · rw [List.mem_singleton.mp hc]; decide
    · have hl : lastO ('_' :: (s4 ++ ['_'])) = some '_' := by
        rw [lastO_cons (by simp), lastO_append_single]
      rw [endsP_of_lastO hl]; decide
    · rfl
    · intro c hc hw
      rcases List.mem_cons.mp hc with rfl | hc
      · exact absurd hw (by decide)
      · rcases List.mem_append.mp hc with hc | hc
        · exact f4ws c hc hw
        · rw [List.mem_singleton.mp hc] at hw
          exact absurd hw (by decide)
    · exact noTwoAdj_cons (noTwoAdj_append_single (by decide) f4adj)
        (Or.inr (by decide))
    · intro hb c hc
      rcases List.mem_cons.mp hc with rfl | hc
      · decide
      · rcases List.mem_append.mp hc with hc | hc
        · exact f4no hb c hc
        · rw [List.mem_singleton.mp hc]; decide
  · exact ⟨f4ill, f4ends, f4head, f4ws, f4adj, f4no⟩

/-- The same invariants for the full sanitizer, plus non-emptiness. -/
theorem safe_filename_base_facts (s : List Char) (m : Nat) (b : Bool) :
    safe_filename_base s m b ≠ [] ∧
    (∀ c ∈ safe_filename_base s m b, isIllegal c = false) ∧
    endsP isDS (safe_filename_base s m b) = false ∧
    headNot isWS (safe_filename_base s m b) = true ∧
    (∀ c ∈ safe_filename_base s m b, isWS c = true → c = ' ') ∧
    noTwoAdj isWS (safe_filename_base s m b) = true ∧
    (b = false → ∀ c ∈ safe_filename_base s m b, isWS c = false) := by
  obtain ⟨pIll, pEnds, pHead, pWs, pAdj, pNo⟩ := preTrunc_facts s b
  simp only [safe_filename_base]
  set s5 := preTrunc s b with hs5def
  set s6 := (if m < s5.length then rdropW isDS (s5.take m) else s5) with hs6def
  have f6ill : ∀ c ∈ s6, isIllegal c = false := by
    rw [hs6def]; split
    · intro c hc
      exact pIll c (List.take_subset _ _ (mem_rdropW hc))
    · exact pIll
  have f6ends : endsP isDS s6 = false := by
    rw [hs6def]; split
    · exact endsP_rdropW _ _
    · exact pEnds
  have f6head : headNot isWS s6 = true := by
    rw [hs6def]; split
    · exact headNot_rdropW (headNot_take pHead m)
    · exact pHead
  have f6ws : ∀ c ∈ s6, isWS c = true → c = ' ' := by
    rw [hs6def]; split
    · intro c hc
      exact pWs c (List.take_subset _ _ (mem_rdropW hc))
    · exact pWs
  have f6adj : noTwoAdj isWS s6 = true := by
    rw [hs6def]; split
    · exact noTwoAdj_rdropW (noTwoAdj_take m pAdj)
    · exact pAdj
  have f6no : b = false → ∀ c ∈ s6, isWS c = false := by
    intro hb
    rw [hs6def]; split
    · intro c hc
      exact pNo hb c (List.take_subset _ _ (mem_rdropW hc))
    · exact pNo hb
  split
  · exact ⟨by decide, by decide, by decide, by decide, by decide, by decide,
      fun _ => by decide⟩
  · next h6 => exact ⟨h6, f6ill, f6ends, f6head, f6ws, f6adj, f6no⟩

/-- Wrapped bases `_<base>_` are never reserved names: every reserved
name starts with a letter. -/
theorem isReserved_wrap (l : List Char) :
    isReserved ('_' :: (l ++ ['_'])) = false := by
  by_contra hc
  have hmem : ('_' :: (l ++ ['_'])).map upperChar ∈ winReserved := by
    have hb : isReserved ('_' :: (l ++ ['_'])) = true := by simpa using hc
    rw [isReserved] at hb
    exact of_decide_eq_true hb
  have hhead : ∀ w ∈ winReserved, w.head? ≠ some '_' := by decide
  have hh : (('_' :: (l ++ ['_'])).map upperChar).head? = some '_' := by
    rw [List.map_cons]
    show some (upperChar '_') = some '_'
    decide
  exact hhead _ hmem hh

/-- `preTrunc` never produces a reserved name: the reserved-name check
is the last step before truncation, and wrapping makes the name start
with an underscore. -/
theorem isReserved_preTrunc (s : List Char) (b : Bool) :
    isReserved (preTrunc s b) = false := by
  simp only [preTrunc]
  set s1 := wsNormalize b (stripL s) with hs1def
  set s2 := (if s1 = [] then untitled else s1) with hs2def
  set s3 := s2.map illegalToU with hs3def
  set s4 := rdropW isDS s3 with hs4def
  by_cases h : isReserved s4 = true
  · rw [if_pos h]; exact isReserved_wrap _
  · rw [if_neg h]; simpa using h

/-- A sanitized string in normal form is a fixed point of the
sanitizer: if it has no doubled underscore (in the default mode), is
not a reserved name, and fits within `max_len`, sanitizing again
changes nothing. -/
theorem sanitize_fixed (t : List Char) (m : Nat) (b : Bool)
    (hne : t ≠ [])
    (hill : ∀ c ∈ t, isIllegal c = false)
    (hends : endsP isDS t = false)
    (hhead : headNot isWS t = true)
    (hws : ∀ c ∈ t, isWS c = true → c = ' ')
    (hadj : noTwoAdj isWS t = true)
    (hno : b = false → ∀ c ∈ t, isWS c = false)
    (hund : b = false → noTwoAdj (fun c => c = '_') t = true)
    (hres : isReserved t = false)
    (hlen : t.length ≤ m) :
    safe_filename_base t m b = t := by
  have hstrip : stripL t = t := by
    rw [stripL, dropWhile_eq_self_of_headNot hhead]
    refine rdropW_eq_self_of_not_endsP ?_
    refine endsP_false_mono (fun c hc hw => ?_) hends
    rw [hws c hc hw]; decide
  have hnorm : wsNormalize b t = t := by
    cases b with
    | true =>
      simp only [wsNormalize, if_true, collapseRuns]
      exact (collapseRunsAux_fixed hws hadj).1
    | false =>
      have hnws := hno rfl
      have h1 : collapseRunsAux isWS '_' false t = t :=
        (collapseRunsAux_fixed (fun c hc hw => absurd hw (by simp [hnws c hc]))
          (noTwoAdj_of_all hnws)).1
      have h2 : collapseRunsAux (fun c => c = '_') '_' false t = t :=
        (collapseRunsAux_fixed (fun c _ h => by simpa using h) (hund rfl)).1
      simp only [wsNormalize, Bool.false_eq_true, if_false, collapseRuns]
      rw [h1, h2]
  have hmap : t.map illegalToU = t :=
    map_id_of_mem (fun c hc => by rw [illegalToU, if_neg (by simp [hill c hc])])
  have hpre : preTrunc t b = t := by
    simp only [preTrunc]
    rw [hstrip, hnorm, if_neg hne, hmap, rdropW_eq_self_of_not_endsP hends,
      if_neg (by simp [hres])]
  simp only [safe_filename_base]
  rw [hpre, if_neg (Nat.not_lt.mpr hlen), if_neg hne]

/-! ### Lemmas about `unique_path` -/

theorem natDecimal_length_pow (e : Nat) :
    (natDecimal (10 ^ e)).length = e + 1 := by
  have hpos : 10 ^ e ≠ 0 := by positivity
  rw [natDecimal, if_neg hpos, List.length_reverse, List.length_map,
    Nat.digits_len 10 _ (by norm_num) hpos, Nat.log_pow (by norm_num)]

theorem natDecimal_le_candName (p : FPath) (i : Nat) :
    (natDecimal i).length ≤ (candName p i).fname.length := by
  simp only [candName, List.length_append, List.length_cons]
  omega

theorem le_foldr_max : ∀ (l : List Nat), ∀ x ∈ l, x ≤ l.foldr max 0 := by
  intro l
  induction l with
  | nil => intro x hx; simp at hx
  | cons a t ih =>
    intro x hx
    rcases List.mem_cons.mp hx with rfl | hx
    · exact le_max_left _ _
    · exact le_trans (ih x hx) (le_max_right _ _)

theorem fname_length_le_nameBound {fs : FS} {q : FPath × Nat}
    (h : q ∈ fs.files) : q.1.fname.length ≤ nameBound fs := by
  apply le_foldr_max
  exact List.mem_append_left _ (List.mem_map.mpr ⟨q, h, rfl⟩)

theorem mem_dirs_foldr :
    ∀ (ds : List (List (List Char))) (d : List (List Char)) (g : List Char),
      d ∈ ds → g ∈ d →
      g.length ∈ ds.foldr (fun (d : List (List Char)) (acc : List Nat) =>
        d.map List.length ++ acc) [] := by
  intro ds
  induction ds with
  | nil => intro d g hd _; simp at hd
  | cons a t ih =>
    intro d g hd hg
    rcases List.mem_cons.mp hd with rfl | hd
    · exact List.mem_append_left _ (List.mem_map.mpr ⟨g, hg, rfl⟩)
    · exact List.mem_append_right _ (ih d g hd hg)

theorem seg_length_le_nameBound {fs : FS} {d : List (List Char)}
    {g : List Char} (hd : d ∈ fs.dirs) (hg : g ∈ d) :
    g.length ≤ nameBound fs := by
  apply le_foldr_max
  exact List.mem_append_right _ (mem_dirs_foldr fs.dirs d g hd hg)

theorem existsP_candName_false (fs : FS) (p : FPath) {i : Nat}
    (hlen : nameBound fs < (natDecimal i).length) :
    fs.existsP (candName p i) = false := by
  by_contra hc
  have hc' : fs.existsP (candName p i) = true := by simpa using hc
  have hlen' : nameBound fs < (candName p i).fname.length :=
    lt_of_lt_of_le hlen (natDecimal_le_candName p i)
  rw [FS.existsP, FS.existsSeg] at hc'
  simp only [Bool.or_eq_true] at hc'
  rcases hc' with h | h
  · have hdec : ((candName p i).dir ++ [(candName p i).fname]) ∈ fs.dirs :=
      of_decide_eq_true h
    have hle : (candName p i).fname.length ≤ nameBound fs :=
      seg_length_le_nameBound hdec (by simp)
    omega
  · rcases List.any_eq_true.mp h with ⟨q, hq, heq⟩
    have heq' : q.1.dir ++ [q.1.fname] =
        (candName p i).dir ++ [(candName p i).fname] := of_decide_eq_true heq
    have hfn : q.1.fname = (candName p i).fname := by
      have h2 := (List.append_inj' heq' (by simp)).2
      simpa using h2
    have hle := fname_length_le_nameBound hq
    rw [hfn] at hle
    omega

theorem uniquePathLoop_spec (fs : FS) (p : FPath) :
    ∀ (fuel i : Nat),
      (∃ k, k < fuel ∧ fs.existsP (candName p (i + k)) = false) →
      fs.existsP (uniquePathLoop fs p i fuel) = false := by
  intro fuel
  induction fuel with
  | zero =>
    intro i h
    rcases h with ⟨k, hk, _⟩
    omega
  | succ n ih =>
    intro i h
    rcases h with ⟨k, hk, hfree⟩
    rw [uniquePathLoop]
    split
    · next hex =>
      have hk0 : k ≠ 0 := by
        intro h0
        rw [h0, Nat.add_zero] at hfree
        rw [hex] at hfree
        exact absurd hfree (by simp)
      refine ih (i + 1) ⟨k - 1, by omega, ?_⟩
      have harith : i + 1 + (k - 1) = i + k := by omega
      rw [harith]
      exact hfree
    · next hex => simpa using hex

/-! ### Claim theorems -/

/-- C2: the claim says every successfully executed rename is appended to
the journal and flushed before the next operation.  The code instead
evaluates `op.keep_link` (line 303) — an attribute the `RenameOp`
dataclass does not define — after the rename and before the journal
append, so the first executed operation raises `AttributeError`, the
rename has happened on disk, and the journal stays empty. -/
theorem C2_rename_executed_but_not_journaled :
    applyRes.2 = some PyErr.attributeError ∧
    applyRes.1.journal = [] ∧
    (⟨["d".data], "new.mp4".data⟩, 7) ∈ applyRes.1.fs.files ∧
    (⟨["d".data], "audio.mp4".data⟩, 7) ∉ applyRes.1.fs.files := by
  decide

/-- C1: the claim says execute-then-undo restores every renamed file to
its original path with unchanged contents.  Because the executor raises
`AttributeError` before writing any journal line (line 303), the journal
after the run is empty, undo restores nothing, and the renamed file stays
at its destination: the original source path no longer exists. -/
theorem C1_round_trip_loses_original_path :
    applyRes.1.journal = [] ∧
    undoRes.files = [(⟨["d".data], "new.mp4".data⟩, 7)] ∧
    (⟨["d".data], "audio.mp4".data⟩, 7) ∉ undoRes.files := by
  decide

/-- C3 counterexample: with the journal's parent directory absent, a
dry run still mutates the filesystem — `apply_rename_ops` runs
`log_path.parent.mkdir(parents=True, exist_ok=True)` (line 262) before
checking `dry_run`, so the state after the call differs from the state
before. -/
theorem C3_dry_run_creates_log_parent :
    (apply_rename_ops [op0c] log0c true st0c).1 ≠ st0c := by
  decide

/-- C3 amended: in dry-run mode `apply_rename_ops` performs no renames,
no link/copy creation, no deletions and no journal writes — files and
journal are returned unchanged and no exception is raised; the only
mutation is creating the journal's parent directory (with ancestors). -/
theorem C3_dry_run_touches_only_log_parent_dir (ops : List RenameOp)
    (log_path : FPath) (st : St) :
    apply_rename_ops ops log_path true st =
      ({ st with fs := { st.fs with
          dirs := mkdirParents log_path.dir st.fs.dirs } }, none) := by
  simp [apply_rename_ops]

/-- C4 counterexample: sanitizing `"a<>b"` yields `"a__b"` (each illegal
character becomes an underscore), and sanitizing that again collapses the
underscore run to `"a_b"` — so `safe_filename_base` is not idempotent. -/
theorem C4_sanitizer_not_idempotent :
    safe_filename_base (safe_filename_base cexC4) ≠ safe_filename_base cexC4 := by
  decide

/-- C4 amended: `safe_filename_base` is idempotent for every input,
`max_len` and `preserve_blanks` whose first sanitization contains no two
adjacent underscores (relevant in the default mode, where
illegal-character replacement can create such runs), is not a reserved
device name (which only truncation can produce), and fits within
`max_len` (violated only when `max_len < 8` forces the `untitled`
fallback to overflow). -/
theorem C4_idempotent_on_normal_forms (s : List Char) (m : Nat) (b : Bool)
    (h1 : b = false →
      noTwoAdj (fun c => c = '_') (safe_filename_base s m b) = true)
    (h2 : isReserved (safe_filename_base s m b) = false)
    (h3 : (safe_filename_base s m b).length ≤ m) :
    safe_filename_base (safe_filename_base s m b) m b =
      safe_filename_base s m b := by
  obtain ⟨hne, hill, hends, hhead, hws, hadj, hno⟩ :=
    safe_filename_base_facts s m b
  exact sanitize_fixed _ m b hne hill hends hhead hws hadj hno h1 h2 h3

/-- C4 witness: `"hello world"` sanitizes to `"hello_world"`, which
satisfies the three side conditions, so a second sanitization is the
identity on it. -/
theorem C4_witness :
    (false = false →
      noTwoAdj (fun c => c = '_')
        (safe_filename_base ( "hello world".data) 180 false) = true) ∧
    isReserved (safe_filename_base ( "hello world".data) 180 false) = false ∧
    (safe_filename_base ( "hello world".data) 180 false).length ≤ 180 ∧
    safe_filename_base (safe_filename_base ( "hello world".data) 180 false)
      180 false = safe_filename_base ( "hello world".data) 180 false :=
  ⟨fun _ => by decide, by decide, by decide,
    C4_idempotent_on_normal_forms ( "hello world".data) 180 false
      (fun _ => by decide) (by decide) (by decide)⟩

/-- C5 amended: the sanitizer never returns an empty string and never
returns a string containing an illegal character; it never returns a
bare reserved device name **provided** the pre-truncation form already
fits in `max_len` (otherwise truncation plus trailing-dot removal can
expose one, as the counterexample shows). -/
theorem C5_sanitizer_guarantees (s : List Char) (m : Nat) (b : Bool) :
    safe_filename_base s m b ≠ [] ∧
    (∀ c ∈ safe_filename_base s m b, isIllegal c = false) ∧
    ((preTrunc s b).length ≤ m →
      isReserved (safe_filename_base s m b) = false) := by
  obtain ⟨hne, hill, _, _, _, _, _⟩ := safe_filename_base_facts s m b
  refine ⟨hne, hill, fun hlen => ?_⟩
  simp only [safe_filename_base]
  rw [if_neg (Nat.not_lt.mpr hlen)]
  split
  · decide
  · exact isReserved_preTrunc s b

/-- C5 witness: for `"hello"` the pre-truncation form fits, so all
three guarantees hold there. -/
theorem C5_witness :
    (preTrunc ( "hello".data) false).length ≤ 180 ∧
    safe_filename_base ( "hello".data) 180 false ≠ [] ∧
    isReserved (safe_filename_base ( "hello".data) 180 false) = false :=
  ⟨by decide, (C5_sanitizer_guarantees ( "hello".data) 180 false).1,
    (C5_sanitizer_guarantees ( "hello".data) 180 false).2.2 (by decide)⟩

/-- C5 counterexample: on a 181-character input starting with `CON`
followed by dots, truncation to `max_len` and the subsequent
`rstrip(" .")` produce the bare reserved device name `CON`, because the
reserved-name check runs before truncation. -/
theorem C5_reserved_name_escapes :
    safe_filename_base cexC5 = "CON".data ∧
    isReserved (safe_filename_base cexC5) = true := by
  decide

/-- C6 counterexample: the claim promises pairwise-distinct results for
any sequence of planned destinations with collisions, but `unique_path`
is a pure function of the (unchanged) filesystem: probing the same
colliding destination twice returns the same path twice. -/
theorem C6_outputs_not_pairwise_distinct :
    ¬ List.Pairwise (fun a b => a ≠ b) (([pC6, pC6]).map (unique_path fsC6)) := by
  intro h
  exact List.rel_of_pairwise_cons h (List.mem_cons_self _ _) rfl

/-- C6 amended: each single `unique_path` call returns a path that does
not exist on the filesystem at call time (so a rename to it overwrites
nothing); pairwise distinctness over a sequence of colliding planned
destinations does **not** hold, since repeated calls on an unchanged
filesystem return the same path. -/
theorem C6_never_returns_existing_path (fs : FS) (p : FPath) :
    fs.existsP (unique_path fs p) = false := by
  rw [unique_path]
  split
  · apply uniquePathLoop_spec
    have h10 : 10 ≤ 10 ^ (nameBound fs + 1) := by
      calc (10 : Nat) = 10 ^ 1 := by norm_num
        _ ≤ 10 ^ (nameBound fs + 1) :=
          Nat.pow_le_pow_right (by norm_num) (by omega)
    refine ⟨10 ^ (nameBound fs + 1) - 2, by omega, ?_⟩
    have h2 : 2 + (10 ^ (nameBound fs + 1) - 2) = 10 ^ (nameBound fs + 1) := by
      omega
    rw [h2]
    apply existsP_candName_false
    rw [natDecimal_length_pow]
    omega
  · next h => simpa using h

/-- C7 counterexample: two pieces with the same sanitized base get
destinations `u_-_Song.mp4` in their respective folders; the second
destination does **not** receive a `__2` disambiguator —
`build_rename_ops` only calls `unique_path` on destinations that do not
exist, which it returns unchanged. -/
theorem C7_no_disambiguator_added :
    plan7.map (fun o => o.dst.fname) =
      [ "u_-_Song.mp4".data, "u_-_Song.mp4".data] ∧
    plan7.map (fun o => o.dst.fname) ≠
      [ "u_-_Song.mp4".data, "u_-_Song__2.mp4".data] := by
  decide

/-- C7 amended: the second piece's destination carries no `__2` suffix;
the two planned destinations are nonetheless distinct paths because each
piece's files are renamed inside its own `short_id` folder. -/
theorem C7_destinations_distinct_by_folder :
    plan7.map (fun o => o.dst) =
      [⟨["pieces".data, "p1".data], "u_-_Song.mp4".data⟩,
       ⟨["pieces".data, "p2".data], "u_-_Song.mp4".data⟩] ∧
    (⟨["pieces".data, "p1".data], "u_-_Song.mp4".data⟩ : FPath) ≠
      ⟨["pieces".data, "p2".data], "u_-_Song.mp4".data⟩ := by
  decide

/-- C8 counterexample: with default options whitespace is replaced by
underscores everywhere, so the planned names are not the claimed
`jdoe - My_Song.mp4` / `jdoe - My_Song.cover.jpg`. -/
theorem C8_claimed_names_wrong :
    plan8.map (fun o => o.dst.fname) ≠
      [ "jdoe - My_Song.mp4".data, "jdoe - My_Song.cover.jpg".data] := by
  decide

/-- C8 amended: the planner produces audio destination
`jdoe_-_My_Song.mp4` and cover destination `jdoe_-_My_Song.cover.jpg`
(every whitespace run of `"jdoe - My Song"` becomes one underscore). -/
theorem C8_actual_planned_names :
    plan8.map (fun o => o.dst.fname) =
      [ "jdoe_-_My_Song.mp4".data, "jdoe_-_My_Song.cover.jpg".data] := by
  decide

/-- C9: any `rename` invocation that passes the startup guards (manifest
present, pieces directory present, `pieces` a list) and is not an undo
ends in `AttributeError` with the state untouched, because `main` passes
the nonexistent attribute `args.keep_mode` to `build_rename_ops`
(line 741) while the CLI only defines `--keep-link`/`--keep-copy`. -/
theorem C9_rename_raises_attribute_error (args : Args) (l : List Piece)
    (st : St) (h : args.undo = false) :
    mainRename args true true (some l) st = (st, Except.error PyErr.attributeError) := by
  simp [mainRename, h]

/-- C9 witness: the concrete no-flag invocation `rename`. -/
theorem C9_witness :
    argsW.undo = false ∧
    mainRename argsW true true (some []) stW = (stW, Except.error PyErr.attributeError) :=
  ⟨rfl, C9_rename_raises_attribute_error argsW [] stW rfl⟩

/-- C10: if the collaborator filter (trim, drop falsy entries, drop the
uploader case-insensitively, de-duplicate case-insensitively) leaves no
name, `build_comment` returns exactly the right-stripped description —
no header, no separator; if names remain, the `Collaborators:` block is
appended after one blank line, or returned alone when the right-stripped
description is empty. -/
theorem C10_build_comment_structure (d : Option (List Char))
    (c : Option (List (List Char))) (u : Option (List Char)) :
    (buildCols (userNorm u) [] (c.getD []) = [] →
      build_comment d c u = rdropW isWS (d.getD [])) ∧
    (buildCols (userNorm u) [] (c.getD []) ≠ [] →
      build_comment d c u =
        (if rdropW isWS (d.getD []) = [] then
          "Collaborators:\n".data ++ joinNL (buildCols (userNorm u) [] (c.getD []))
        else
          rdropW isWS (d.getD []) ++ "\n\n".data ++
            ("Collaborators:\n".data ++ joinNL (buildCols (userNorm u) [] (c.getD []))))) := by
  constructor <;> intro h <;> simp [build_comment, h]

/-- C10 witness: a self-name plus duplicate leaves only `Bob`; excluding
the sole collaborator case-insensitively leaves the bare description. -/
theorem C10_witness :
    buildCols (userNorm (some ( "Alice".data))) []
      [ "Alice".data, "alice".data, "Bob".data] ≠ [] ∧
    build_comment (some ( "desc".data))
      (some [ "Alice".data, "alice".data, "Bob".data])
      (some ( "Alice".data)) = "desc\n\nCollaborators:\nBob".data ∧
    buildCols (userNorm (some ( "alice".data))) [] [ "Alice".data] = [] ∧
    build_comment (some ( "desc ".data)) (some [ "Alice".data])
      (some ( "alice".data)) = "desc".data := by
  refine ⟨by decide, ?_, by decide, ?_⟩
  · rw [(C10_build_comment_structure _ _ _).2 (by decide)]
    decide
  · rw [(C10_build_comment_structure _ _ _).1 (by decide)]
    decide

end Allihoopa
